import Mathlib

/- Verification of the gps source management layer: the in-memory single
   source cache (singleSourceCacheMemory), the call manager, the source
   coordinator and the sourceGateway state machine, embedded shallowly
   from the Go source (deducers.go and the cache file). -/

namespace GPS

/-- Revisions are opaque immutable identifiers (Go type Revision). -/
structure Revision where
  val : Nat
deriving DecidableEq, Repr

/-- Unpaired versions: branch, semver or plain versions, opaque here. -/
structure UnpairedVersion where
  val : Nat
deriving DecidableEq, Repr

/-- A paired version carries a surface version and an underlying revision. -/
structure PairedVersion where
  surface : UnpairedVersion
  rev : Revision
deriving DecidableEq, Repr

/-- Go method PairedVersion.Unpair: the surface version. -/
def PairedVersion.Unpair (p : PairedVersion) : UnpairedVersion := p.surface

/-- Go method PairedVersion.Underlying: the underlying revision. -/
def PairedVersion.Underlying (p : PairedVersion) : Revision := p.rev

/-- The Version interface: a version is a revision, an unpaired version or
    a paired version (the three cases switched on in the cache source). -/
inductive Version where
  | rev (r : Revision)
  | unpaired (u : UnpairedVersion)
  | paired (p : PairedVersion)
deriving DecidableEq, Repr

/-- Opaque project analyzers. -/
structure ProjectAnalyzer where
  val : Nat
deriving DecidableEq, Repr

/-- Opaque manifest and lock payload stored per revision and analyzer. -/
structure projectInfo where
  manifest : Nat
  lock : Nat
deriving DecidableEq, Repr

/-- Opaque package trees. -/
structure PackageTree where
  val : Nat
deriving DecidableEq, Repr

/-- State of singleSourceCacheMemory: the four maps of the Go struct. Go
    maps are modelled as Option-valued functions; a missing key is none.
    The rMap value none is an absent key, some [] a key mapped to nil. -/
structure singleSourceCacheMemory where
  infos : ProjectAnalyzer → Option (Revision → Option projectInfo)
  ptrees : Revision → Option PackageTree
  vMap : UnpairedVersion → Option Revision
  rMap : Revision → Option (List UnpairedVersion)

/-- newMemoryCache: all four maps empty. -/
def newMemoryCache : singleSourceCacheMemory where
  infos := fun _ => none
  ptrees := fun _ => none
  vMap := fun _ => none
  rMap := fun _ => none

/-- setProjectInfo: store pi under infos[an][r], creating the inner map when
    absent, and ensure rMap has at least an entry for r. -/
def setProjectInfo (c : singleSourceCacheMemory) (r : Revision)
    (an : ProjectAnalyzer) (pi : projectInfo) : singleSourceCacheMemory :=
  let inner := match c.infos an with
    | some m => m
    | none => fun _ => none
  { c with
    infos := fun a =>
      if a = an then some (fun rv => if rv = r then some pi else inner rv)
      else c.infos a
    rMap := fun rv =>
      if rv = r then
        match c.rMap r with
        | some l => some l
        | none => some []
      else c.rMap rv }

/-- getProjectInfo: two-level lookup in infos. -/
def getProjectInfo (c : singleSourceCacheMemory) (r : Revision)
    (an : ProjectAnalyzer) : Option projectInfo :=
  match c.infos an with
  | none => none
  | some inner => inner r

/-- setPackageTree: store the tree under ptrees[r] and ensure rMap has at
    least an entry for r. -/
def setPackageTree (c : singleSourceCacheMemory) (r : Revision)
    (ptree : PackageTree) : singleSourceCacheMemory :=
  { c with
    ptrees := fun rv => if rv = r then some ptree else c.ptrees rv
    rMap := fun rv =>
      if rv = r then
        match c.rMap r with
        | some l => some l
        | none => some []
      else c.rMap rv }

/-- getPackageTree: lookup in ptrees. -/
def getPackageTree (c : singleSourceCacheMemory) (r : Revision) :
    Option PackageTree :=
  c.ptrees r

/-- One iteration of the storeVersionMap loop: set vMap[u] = r and append u
    to rMap[r], where u and r are the two halves of the paired version. -/
def storeOne (c : singleSourceCacheMemory) (pv : PairedVersion) :
    singleSourceCacheMemory :=
  let u := pv.Unpair
  let r := pv.Underlying
  { c with
    vMap := fun x => if x = u then some r else c.vMap x
    rMap := fun x => if x = r then some ((c.rMap r).getD [] ++ [u]) else c.rMap x }

/-- storeVersionMap: when flush is set, every existing rMap entry is reset
    to the empty list (keys kept) and vMap is replaced by an empty map;
    then each paired version of the list is stored in order. -/
def storeVersionMap (c : singleSourceCacheMemory)
    (versionList : List PairedVersion) (flush : Bool) :
    singleSourceCacheMemory :=
  let c1 := if flush then
      { c with
        rMap := fun r => (c.rMap r).map (fun _ => [])
        vMap := fun _ => none }
    else c
  versionList.foldl storeOne c1

/-- getVersionsFor: lookup in rMap (the bool of the Go return is isSome). -/
def getVersionsFor (c : singleSourceCacheMemory) (r : Revision) :
    Option (List UnpairedVersion) :=
  c.rMap r

/-- getRevisionFor: lookup in vMap. -/
def getRevisionFor (c : singleSourceCacheMemory) (uv : UnpairedVersion) :
    Option Revision :=
  c.vMap uv

/-- toRevision: a revision converts to itself, a paired version to its
    underlying revision, and an unpaired version through vMap. -/
def toRevision (c : singleSourceCacheMemory) (v : Version) : Option Revision :=
  match v with
  | .rev t => some t
  | .paired t => some t.Underlying
  | .unpaired t => c.vMap t

/-- toUnpaired: an unpaired version converts to itself, a paired version to
    its surface version, and a revision to the first element of its rMap
    entry when that entry is present and non-empty. -/
def toUnpaired (c : singleSourceCacheMemory) (v : Version) :
    Option UnpairedVersion :=
  match v with
  | .unpaired t => some t
  | .paired t => some t.Unpair
  | .rev t =>
    match c.rMap t with
    | some upv => upv.head?
    | none => none

/-- The mutating operations of the cache (the read operations do not change
    the state, so reachability is determined by these three). -/
inductive CacheOp where
  | setPI (r : Revision) (an : ProjectAnalyzer) (pi : projectInfo)
  | setPT (r : Revision) (t : PackageTree)
  | store (l : List PairedVersion) (flush : Bool)
deriving DecidableEq, Repr

/-- Apply one mutating cache operation. -/
def applyOp (c : singleSourceCacheMemory) (op : CacheOp) :
    singleSourceCacheMemory :=
  match op with
  | .setPI r an pi => setProjectInfo c r an pi
  | .setPT r t => setPackageTree c r t
  | .store l flush => storeVersionMap c l flush

/-- Apply a sequence of mutating cache operations from left to right. -/
def runOps (c : singleSourceCacheMemory) (ops : List CacheOp) :
    singleSourceCacheMemory :=
  ops.foldl applyOp c

/-- The unpaired versions of the list that are paired with revision r, in
    list order: exactly the elements appended to rMap[r] by the store loop. -/
def filt (r : Revision) (l : List PairedVersion) : List UnpairedVersion :=
  l.filterMap (fun pv => if pv.Underlying = r then some pv.Unpair else none)

/-- Last-write-wins lookup of u in the list, starting from acc. -/
def lookupLastD (l : List PairedVersion) (acc : Option Revision)
    (u : UnpairedVersion) : Option Revision :=
  l.foldl (fun a pv => if pv.Unpair = u then some pv.Underlying else a) acc

/-- Last-write-wins lookup of u in the list. -/
def lookupLast (l : List PairedVersion) (u : UnpairedVersion) : Option Revision :=
  lookupLastD l none u

lemma lookupLastD_cons (pv : PairedVersion) (t : List PairedVersion)
    (acc : Option Revision) (u : UnpairedVersion) :
    lookupLastD (pv :: t) acc u =
      lookupLastD t (if pv.Unpair = u then some pv.Underlying else acc) u := by
  simp [lookupLastD, List.foldl_cons]

lemma lookupLastD_append (t : List PairedVersion) (pv : PairedVersion)
    (acc : Option Revision) (u : UnpairedVersion) :
    lookupLastD (t ++ [pv]) acc u =
      if pv.Unpair = u then some pv.Underlying else lookupLastD t acc u := by
  simp [lookupLastD, List.foldl_append]

lemma lookupLastD_of_not_mem (l : List PairedVersion) (acc : Option Revision)
    (u : UnpairedVersion) (h : ∀ pv ∈ l, pv.Unpair ≠ u) :
    lookupLastD l acc u = acc := by
  induction l generalizing acc with
  | nil => rfl
  | cons pv t ih =>
    rw [lookupLastD_cons]
    have hpv : pv.Unpair ≠ u := h pv (List.mem_cons_self _ _)
    rw [if_neg hpv]
    exact ih acc (fun qv hqv => h qv (List.mem_cons_of_mem _ hqv))

lemma lookupLastD_isSome (l : List PairedVersion) (acc : Option Revision)
    (u : UnpairedVersion) :
    (lookupLastD l acc u).isSome ↔
      u ∈ l.map PairedVersion.Unpair ∨ acc.isSome := by
  induction l generalizing acc with
  | nil => simp [lookupLastD]
  | cons pv t ih =>
    rw [lookupLastD_cons, ih]
    by_cases hpv : pv.Unpair = u
    · simp [hpv]
    · simp [hpv, Ne.symm hpv]

lemma mem_filt (r : Revision) (l : List PairedVersion) (u : UnpairedVersion) :
    u ∈ filt r l ↔ ∃ pv, pv ∈ l ∧ pv.Underlying = r ∧ pv.Unpair = u := by
  simp only [filt, List.mem_filterMap]
  constructor
  · rintro ⟨pv, hmem, hsome⟩
    by_cases hr : pv.Underlying = r
    · rw [if_pos hr] at hsome
      exact ⟨pv, hmem, hr, Option.some_inj.mp hsome⟩
    · rw [if_neg hr] at hsome
      exact absurd hsome (Option.noConfusion)
  · rintro ⟨pv, hmem, hr, hu⟩
    exact ⟨pv, hmem, by rw [if_pos hr, hu]⟩

lemma filt_subset_unpairs (r : Revision) (l : List PairedVersion)
    (u : UnpairedVersion) (h : u ∈ filt r l) :
    u ∈ l.map PairedVersion.Unpair := by
  rcases (mem_filt r l u).mp h with ⟨pv, hmem, _, hu⟩
  exact List.mem_map.mpr ⟨pv, hmem, hu⟩

lemma storeOne_vMap (c : singleSourceCacheMemory) (pv : PairedVersion)
    (u : UnpairedVersion) :
    (storeOne c pv).vMap u =
      if pv.Unpair = u then some pv.Underlying else c.vMap u := by
  simp only [storeOne]
  by_cases h : u = pv.Unpair
  · simp [h]
  · rw [if_neg h, if_neg (fun hh => h hh.symm)]

lemma storeOne_rMap (c : singleSourceCacheMemory) (pv : PairedVersion)
    (r : Revision) :
    (storeOne c pv).rMap r =
      if pv.Underlying = r then
        some ((c.rMap r).getD [] ++ [pv.Unpair])
      else c.rMap r := by
  simp only [storeOne]
  by_cases h : r = pv.Underlying
  · simp [h]
  · rw [if_neg h, if_neg (fun hh => h hh.symm)]

lemma storeFold_vMap (l : List PairedVersion) (c0 : singleSourceCacheMemory)
    (u : UnpairedVersion) :
    (l.foldl storeOne c0).vMap u = lookupLastD l (c0.vMap u) u := by
  induction l generalizing c0 with
  | nil => rfl
  | cons pv t ih =>
    rw [List.foldl_cons, lookupLastD_cons, ih, storeOne_vMap]

lemma storeFold_rMap (l : List PairedVersion) (c0 : singleSourceCacheMemory)
    (r : Revision) :
    (l.foldl storeOne c0).rMap r =
      if filt r l = [] then c0.rMap r
      else some ((c0.rMap r).getD [] ++ filt r l) := by
  induction l generalizing c0 with
  | nil => simp [filt]
  | cons pv t ih =>
    rw [List.foldl_cons, ih]
    by_cases h : pv.Underlying = r
    · have hfilt : filt r (pv :: t) = pv.Unpair :: filt r t := by
        simp [filt, List.filterMap_cons, h]
      rw [hfilt, storeOne_rMap, if_pos h]
      by_cases ht : filt r t = []
      · simp [ht]
      · simp [ht]
    · have hfilt : filt r (pv :: t) = filt r t := by
        simp [filt, List.filterMap_cons, h]
      rw [hfilt, storeOne_rMap, if_neg h]

lemma storeVersionMap_flush_vMap (c : singleSourceCacheMemory)
    (l : List PairedVersion) (u : UnpairedVersion) :
    (storeVersionMap c l true).vMap u = lookupLast l u := by
  simp only [storeVersionMap, if_pos]
  rw [storeFold_vMap]
  rfl

lemma storeVersionMap_flush_rMap (c : singleSourceCacheMemory)
    (l : List PairedVersion) (r : Revision) :
    (storeVersionMap c l true).rMap r =
      if filt r l = [] then (c.rMap r).map (fun _ => [])
      else some (filt r l) := by
  simp only [storeVersionMap, if_pos]
  rw [storeFold_rMap]
  cases h : c.rMap r <;> simp [h]

lemma storeVersionMap_flush_rMap_getD (c : singleSourceCacheMemory)
    (l : List PairedVersion) (r : Revision) :
    ((storeVersionMap c l true).rMap r).getD [] = filt r l := by
  rw [storeVersionMap_flush_rMap]
  by_cases h : filt r l = []
  · cases hc : c.rMap r <;> simp [h, hc]
  · simp [h]

lemma filt_cons (r : Revision) (pv : PairedVersion) (t : List PairedVersion) :
    filt r (pv :: t) =
      if pv.Underlying = r then pv.Unpair :: filt r t else filt r t := by
  by_cases h : pv.Underlying = r <;> simp [filt, List.filterMap_cons, h]

lemma lookupLast_nodup (l : List PairedVersion)
    (hn : (l.map PairedVersion.Unpair).Nodup) (u : UnpairedVersion)
    (r : Revision) :
    lookupLast l u = some r ↔ u ∈ filt r l := by
  induction l with
  | nil => simp [lookupLast, lookupLastD, filt]
  | cons pv t ih =>
    rw [List.map_cons, List.nodup_cons] at hn
    obtain ⟨hpv, htn⟩ := hn
    rw [lookupLast, lookupLastD_cons, filt_cons]
    by_cases hu : pv.Unpair = u
    · rw [if_pos hu]
      have hnot : ∀ qv ∈ t, qv.Unpair ≠ u := by
        intro qv hqv heq
        exact hpv (by rw [hu]; exact List.mem_map.mpr ⟨qv, hqv, heq⟩)
      rw [lookupLastD_of_not_mem t _ u hnot]
      have hunotfilt : u ∉ filt r t := fun hmem => by
        rcases (mem_filt r t u).mp hmem with ⟨qv, hqv, _, hqu⟩
        exact hnot qv hqv hqu
      by_cases hr : pv.Underlying = r
      · simp [hr, hu, hunotfilt]
      · simp [hr, hunotfilt]
    · rw [if_neg hu]
      have hiff := ih htn
      rw [lookupLast] at hiff
      rw [hiff]
      by_cases hr : pv.Underlying = r
      · rw [if_pos hr]
        constructor
        · exact List.mem_cons_of_mem _
        · intro hmem
          rcases List.mem_cons.mp hmem with h1 | h2
          · exact absurd h1.symm hu
          · exact h2
      · rw [if_neg hr]

lemma lookupLastD_some_cases (l : List PairedVersion) (acc : Option Revision)
    (u : UnpairedVersion) (r : Revision)
    (h : lookupLastD l acc u = some r) :
    (∃ pv ∈ l, pv.Unpair = u ∧ pv.Underlying = r) ∨ acc = some r := by
  induction l generalizing acc with
  | nil => exact Or.inr h
  | cons pv t ih =>
    rw [lookupLastD_cons] at h
    rcases ih _ h with ⟨qv, hqv, hqu, hqr⟩ | hacc
    · exact Or.inl ⟨qv, List.mem_cons_of_mem _ hqv, hqu, hqr⟩
    · by_cases hu : pv.Unpair = u
      · rw [if_pos hu] at hacc
        exact Or.inl ⟨pv, List.mem_cons_self _ _, hu,
          Option.some_inj.mp hacc⟩
      · rw [if_neg hu] at hacc
        exact Or.inr hacc

lemma setProjectInfo_vMap (c : singleSourceCacheMemory) (r : Revision)
    (an : ProjectAnalyzer) (pi : projectInfo) :
    (setProjectInfo c r an pi).vMap = c.vMap := rfl

lemma setProjectInfo_ptrees (c : singleSourceCacheMemory) (r : Revision)
    (an : ProjectAnalyzer) (pi : projectInfo) :
    (setProjectInfo c r an pi).ptrees = c.ptrees := rfl

lemma setProjectInfo_rMap (c : singleSourceCacheMemory) (r : Revision)
    (an : ProjectAnalyzer) (pi : projectInfo) (rv : Revision) :
    (setProjectInfo c r an pi).rMap rv =
      if rv = r then some ((c.rMap r).getD []) else c.rMap rv := by
  simp only [setProjectInfo]
  by_cases h : rv = r
  · cases hc : c.rMap r <;> simp [h, hc]
  · simp [h]

lemma setPackageTree_vMap (c : singleSourceCacheMemory) (r : Revision)
    (t : PackageTree) :
    (setPackageTree c r t).vMap = c.vMap := rfl

lemma setPackageTree_infos (c : singleSourceCacheMemory) (r : Revision)
    (t : PackageTree) :
    (setPackageTree c r t).infos = c.infos := rfl

lemma setPackageTree_ptrees (c : singleSourceCacheMemory) (r : Revision)
    (t : PackageTree) (rv : Revision) :
    (setPackageTree c r t).ptrees rv =
      if rv = r then some t else c.ptrees rv := rfl

lemma setPackageTree_rMap (c : singleSourceCacheMemory) (r : Revision)
    (t : PackageTree) (rv : Revision) :
    (setPackageTree c r t).rMap rv =
      if rv = r then some ((c.rMap r).getD []) else c.rMap rv := by
  simp only [setPackageTree]
  by_cases h : rv = r
  · cases hc : c.rMap r <;> simp [h, hc]
  · simp [h]

lemma storeFold_infos (l : List PairedVersion) (c0 : singleSourceCacheMemory) :
    (l.foldl storeOne c0).infos = c0.infos := by
  induction l generalizing c0 with
  | nil => rfl
  | cons pv t ih => rw [List.foldl_cons, ih]; rfl

lemma storeFold_ptrees (l : List PairedVersion) (c0 : singleSourceCacheMemory) :
    (l.foldl storeOne c0).ptrees = c0.ptrees := by
  induction l generalizing c0 with
  | nil => rfl
  | cons pv t ih => rw [List.foldl_cons, ih]; rfl

lemma storeVersionMap_infos (c : singleSourceCacheMemory)
    (l : List PairedVersion) (flush : Bool) :
    (storeVersionMap c l flush).infos = c.infos := by
  cases flush <;> simp [storeVersionMap, storeFold_infos]

lemma storeVersionMap_ptrees (c : singleSourceCacheMemory)
    (l : List PairedVersion) (flush : Bool) :
    (storeVersionMap c l flush).ptrees = c.ptrees := by
  cases flush <;> simp [storeVersionMap, storeFold_ptrees]

/-- Whether a cache operation is a storeVersionMap call. -/
def isStore : CacheOp → Bool
  | .store _ _ => true
  | .setPI _ _ _ => false
  | .setPT _ _ => false

lemma applyOp_storeFree_vMap (c : singleSourceCacheMemory) (op : CacheOp)
    (h : isStore op = false) : (applyOp c op).vMap = c.vMap := by
  cases op with
  | setPI r an pi => rfl
  | setPT r t => rfl
  | store l flush => simp [isStore] at h

lemma applyOp_storeFree_rMap_getD (c : singleSourceCacheMemory) (op : CacheOp)
    (h : isStore op = false) (r : Revision) :
    ((applyOp c op).rMap r).getD [] = (c.rMap r).getD [] := by
  cases op with
  | setPI r0 an pi =>
    show ((setProjectInfo c r0 an pi).rMap r).getD [] = _
    rw [setProjectInfo_rMap]
    by_cases hr : r = r0
    · rw [if_pos hr, hr]; rfl
    · rw [if_neg hr]
  | setPT r0 t =>
    show ((setPackageTree c r0 t).rMap r).getD [] = _
    rw [setPackageTree_rMap]
    by_cases hr : r = r0
    · rw [if_pos hr, hr]; rfl
    · rw [if_neg hr]
  | store l flush => simp [isStore] at h

lemma runOps_storeFree_vMap (ops : List CacheOp) (c : singleSourceCacheMemory)
    (h : ∀ op ∈ ops, isStore op = false) : (runOps c ops).vMap = c.vMap := by
  induction ops generalizing c with
  | nil => rfl
  | cons op t ih =>
    rw [runOps, List.foldl_cons]
    rw [show (t.foldl applyOp (applyOp c op)) = runOps (applyOp c op) t from rfl]
    rw [ih _ (fun o ho => h o (List.mem_cons_of_mem _ ho))]
    exact applyOp_storeFree_vMap c op (h op (List.mem_cons_self _ _))

lemma runOps_storeFree_rMap_getD (ops : List CacheOp)
    (c : singleSourceCacheMemory) (h : ∀ op ∈ ops, isStore op = false)
    (r : Revision) :
    ((runOps c ops).rMap r).getD [] = (c.rMap r).getD [] := by
  induction ops generalizing c with
  | nil => rfl
  | cons op t ih =>
    rw [runOps, List.foldl_cons]
    rw [show (t.foldl applyOp (applyOp c op)) = runOps (applyOp c op) t from rfl]
    rw [ih _ (fun o ho => h o (List.mem_cons_of_mem _ ho))]
    exact applyOp_storeFree_rMap_getD c op (h op (List.mem_cons_self _ _)) r

lemma storeVersionMap_vMap_eq (c : singleSourceCacheMemory)
    (l : List PairedVersion) (flush : Bool) (u : UnpairedVersion) :
    (storeVersionMap c l flush).vMap u =
      lookupLastD l (if flush then none else c.vMap u) u := by
  cases flush
  · simp only [storeVersionMap, if_neg Bool.false_ne_true]
    rw [storeFold_vMap]
  · simp only [storeVersionMap, if_pos rfl]
    rw [storeFold_vMap]
    simp

lemma storeVersionMap_rMap_isSome (c : singleSourceCacheMemory)
    (l : List PairedVersion) (flush : Bool) (r : Revision) :
    ((storeVersionMap c l flush).rMap r).isSome = true ↔
      ((c.rMap r).isSome = true ∨ filt r l ≠ []) := by
  cases flush
  · simp only [storeVersionMap, if_neg Bool.false_ne_true]
    rw [storeFold_rMap]
    by_cases h : filt r l = [] <;> simp [h]
  · rw [storeVersionMap_flush_rMap]
    by_cases h : filt r l = []
    · cases hc : c.rMap r <;> simp [h, hc]
    · simp [h]

lemma storeVersionMap_rMap_nonempty (c : singleSourceCacheMemory)
    (l : List PairedVersion) (flush : Bool) (r : Revision)
    (h : filt r l ≠ []) :
    ∃ l0, (storeVersionMap c l flush).rMap r = some l0 ∧ l0 ≠ [] := by
  cases flush
  · simp only [storeVersionMap, if_neg Bool.false_ne_true]
    rw [storeFold_rMap, if_neg h]
    exact ⟨_, rfl, by simp [h]⟩
  · rw [storeVersionMap_flush_rMap, if_neg h]
    exact ⟨_, rfl, h⟩

lemma storeVersionMap_rMap_keep (c : singleSourceCacheMemory)
    (l : List PairedVersion) (flush : Bool) (r : Revision) (l0 : List UnpairedVersion)
    (h : c.rMap r = some l0) :
    ∃ l1, (storeVersionMap c l flush).rMap r = some l1 ∧
      (flush = false → ∀ x ∈ l0, x ∈ l1) := by
  cases flush
  · simp only [storeVersionMap, if_neg Bool.false_ne_true]
    rw [storeFold_rMap]
    by_cases hf : filt r l = []
    · rw [if_pos hf]
      exact ⟨l0, h, fun _ x hx => hx⟩
    · rw [if_neg hf]
      refine ⟨_, rfl, fun _ x hx => ?_⟩
      rw [h]
      exact List.mem_append_left _ hx
  · rw [storeVersionMap_flush_rMap]
    by_cases hf : filt r l = []
    · rw [if_pos hf, h]
      exact ⟨[], rfl, fun hff => by cases hff⟩
    · rw [if_neg hf]
      exact ⟨_, rfl, fun hff => by cases hff⟩

/-- C3: after storeVersionMap(list, flush=true), vMap is exactly the
    last-write-wins lookup over the list (one entry per listed unpaired
    version), every rMap entry holds exactly the unpaired versions of the
    list paired with that revision in list order, the rMap key set is the
    old key set extended by the listed revisions (so a superset of them),
    and lookupLast picks the last matching pair of the list. -/
theorem storeVersionMap_flush_spec (c : singleSourceCacheMemory)
    (l : List PairedVersion) :
    (∀ u, (storeVersionMap c l true).vMap u = lookupLast l u)
    ∧ (∀ u, (((storeVersionMap c l true).vMap u).isSome = true)
        ↔ u ∈ l.map PairedVersion.Unpair)
    ∧ (∀ r, (storeVersionMap c l true).rMap r =
        if filt r l = [] then (c.rMap r).map (fun _ => []) else some (filt r l))
    ∧ (∀ r, (((storeVersionMap c l true).rMap r).isSome = true)
        ↔ ((c.rMap r).isSome = true ∨ filt r l ≠ []))
    ∧ (∀ pv ∈ l, ((storeVersionMap c l true).rMap pv.Underlying).isSome = true)
    ∧ (∀ t pv u, lookupLast (t ++ [pv]) u =
        if pv.Unpair = u then some pv.Underlying else lookupLast t u) := by
  refine ⟨fun u => storeVersionMap_flush_vMap c l u, fun u => ?_,
    fun r => storeVersionMap_flush_rMap c l r,
    fun r => storeVersionMap_rMap_isSome c l true r, fun pv hpv => ?_, ?_⟩
  · rw [storeVersionMap_flush_vMap, lookupLast, lookupLastD_isSome]
    simp
  · rw [storeVersionMap_rMap_isSome]
    refine Or.inr ?_
    have : pv.Unpair ∈ filt pv.Underlying l :=
      (mem_filt _ _ _).mpr ⟨pv, hpv, rfl, rfl⟩
    exact List.ne_nil_of_mem this
  · intro t pv u
    exact lookupLastD_append t pv none u

/-- C3 witness: a concrete flushing store observed through the theorem. -/
theorem storeVersionMap_flush_spec_witness :
    ((storeVersionMap newMemoryCache
      [{ surface := ⟨0⟩, rev := ⟨1⟩ }] true).rMap ⟨1⟩).isSome = true :=
  (storeVersionMap_flush_spec newMemoryCache
    [{ surface := ⟨0⟩, rev := ⟨1⟩ }]).2.2.2.2.1
    { surface := ⟨0⟩, rev := ⟨1⟩ } (by decide)

/-- C4 counterexample: storing the same unpaired version paired with two
    different revisions (flush=true) leaves u in rMap of the first revision
    while vMap maps u to the second, so the claimed mutual-inverse
    equivalence fails at (u, first revision). -/
theorem vMap_rMap_not_mutual_inverse :
    ((storeVersionMap newMemoryCache
        [{ surface := ⟨0⟩, rev := ⟨1⟩ }, { surface := ⟨0⟩, rev := ⟨2⟩ }]
        true).vMap ⟨0⟩ ≠ some ⟨1⟩)
    ∧ (⟨0⟩ : UnpairedVersion) ∈ ((storeVersionMap newMemoryCache
        [{ surface := ⟨0⟩, rev := ⟨1⟩ }, { surface := ⟨0⟩, rev := ⟨2⟩ }]
        true).rMap ⟨1⟩).getD [] := by
  constructor
  · rw [storeVersionMap_flush_vMap]
    decide
  · rw [storeVersionMap_flush_rMap_getD]
    decide

/-- C4 (amended): provided the most recent storeVersionMap used flush=true
    with a list whose unpaired versions are pairwise distinct, and only
    non-store operations follow it, vMap and rMap are mutual inverses:
    vMap[u] = r iff u is a member of rMap[r]. -/
theorem vMap_rMap_mutual_inverse (c : singleSourceCacheMemory)
    (l : List PairedVersion) (ops : List CacheOp) (u : UnpairedVersion)
    (r : Revision) (hn : (l.map PairedVersion.Unpair).Nodup)
    (hops : ∀ op ∈ ops, isStore op = false) :
    (runOps (storeVersionMap c l true) ops).vMap u = some r
      ↔ u ∈ ((runOps (storeVersionMap c l true) ops).rMap r).getD [] := by
  rw [runOps_storeFree_vMap ops _ hops, runOps_storeFree_rMap_getD ops _ hops r,
    storeVersionMap_flush_vMap, storeVersionMap_flush_rMap_getD]
  exact lookupLast_nodup l hn u r

/-- C4 witness: the amended equivalence at a concrete store and state. -/
theorem vMap_rMap_mutual_inverse_witness :
    (runOps (storeVersionMap newMemoryCache
        [{ surface := ⟨0⟩, rev := ⟨1⟩ }] true)
        [CacheOp.setPT ⟨5⟩ ⟨7⟩]).vMap ⟨0⟩ = some ⟨1⟩
      ↔ (⟨0⟩ : UnpairedVersion) ∈ ((runOps (storeVersionMap newMemoryCache
        [{ surface := ⟨0⟩, rev := ⟨1⟩ }] true)
        [CacheOp.setPT ⟨5⟩ ⟨7⟩]).rMap ⟨1⟩).getD [] :=
  vMap_rMap_mutual_inverse newMemoryCache [{ surface := ⟨0⟩, rev := ⟨1⟩ }]
    [CacheOp.setPT ⟨5⟩ ⟨7⟩] ⟨0⟩ ⟨1⟩ (by decide) (by decide)

/-- Every revision appearing as a ptrees key, an inner infos key or a vMap
    value has an rMap entry. -/
def rMapComplete (c : singleSourceCacheMemory) : Prop :=
  ∀ r : Revision,
    ((∃ a m, c.infos a = some m ∧ (m r).isSome = true)
      ∨ (c.ptrees r).isSome = true
      ∨ (∃ u, c.vMap u = some r)) →
    (c.rMap r).isSome = true

lemma rMapComplete_setProjectInfo (c : singleSourceCacheMemory)
    (r0 : Revision) (an0 : ProjectAnalyzer) (pi0 : projectInfo)
    (h : rMapComplete c) : rMapComplete (setProjectInfo c r0 an0 pi0) := by
  intro r hyp
  rw [setProjectInfo_rMap]
  by_cases hr : r = r0
  · rw [if_pos hr]; rfl
  · rw [if_neg hr]
    apply h r
    rcases hyp with ⟨a, m, ha, hm⟩ | hp | ⟨u, hu⟩
    · by_cases han : a = an0
      · simp only [setProjectInfo, han, if_pos rfl] at ha
        have hm2 : m r = (match c.infos an0 with
            | some m0 => m0
            | none => fun _ => none) r := by
          rw [← Option.some_inj.mp ha]
          simp [hr]
        rw [hm2] at hm
        cases hc : c.infos an0 with
        | none => rw [hc] at hm; simp at hm
        | some m0 =>
          rw [hc] at hm
          exact Or.inl ⟨an0, m0, hc, hm⟩
      · simp only [setProjectInfo, if_neg han] at ha
        exact Or.inl ⟨a, m, ha, hm⟩
    · rw [setProjectInfo_ptrees] at hp
      exact Or.inr (Or.inl hp)
    · rw [setProjectInfo_vMap] at hu
      exact Or.inr (Or.inr ⟨u, hu⟩)

lemma rMapComplete_setPackageTree (c : singleSourceCacheMemory)
    (r0 : Revision) (t0 : PackageTree)
    (h : rMapComplete c) : rMapComplete (setPackageTree c r0 t0) := by
  intro r hyp
  rw [setPackageTree_rMap]
  by_cases hr : r = r0
  · rw [if_pos hr]; rfl
  · rw [if_neg hr]
    apply h r
    rcases hyp with ⟨a, m, ha, hm⟩ | hp | ⟨u, hu⟩
    · rw [setPackageTree_infos] at ha
      exact Or.inl ⟨a, m, ha, hm⟩
    · rw [setPackageTree_ptrees, if_neg hr] at hp
      exact Or.inr (Or.inl hp)
    · rw [setPackageTree_vMap] at hu
      exact Or.inr (Or.inr ⟨u, hu⟩)

lemma rMapComplete_store (c : singleSourceCacheMemory)
    (l : List PairedVersion) (flush : Bool)
    (h : rMapComplete c) : rMapComplete (storeVersionMap c l flush) := by
  intro r hyp
  rw [storeVersionMap_rMap_isSome]
  rcases hyp with ⟨a, m, ha, hm⟩ | hp | ⟨u, hu⟩
  · rw [storeVersionMap_infos] at ha
    exact Or.inl (h r (Or.inl ⟨a, m, ha, hm⟩))
  · rw [storeVersionMap_ptrees] at hp
    exact Or.inl (h r (Or.inr (Or.inl hp)))
  · rw [storeVersionMap_vMap_eq] at hu
    rcases lookupLastD_some_cases l _ u r hu with ⟨pv, hpv, hpu, hpr⟩ | hacc
    · exact Or.inr (List.ne_nil_of_mem
        ((mem_filt r l pv.Unpair).mpr ⟨pv, hpv, hpr, rfl⟩))
    · cases flush
      · rw [if_neg Bool.false_ne_true] at hacc
        exact Or.inl (h r (Or.inr (Or.inr ⟨u, hacc⟩)))
      · rw [if_pos rfl] at hacc
        cases hacc

lemma rMapComplete_applyOp (c : singleSourceCacheMemory) (op : CacheOp)
    (h : rMapComplete c) : rMapComplete (applyOp c op) := by
  cases op with
  | setPI r an pi => exact rMapComplete_setProjectInfo c r an pi h
  | setPT r t => exact rMapComplete_setPackageTree c r t h
  | store l flush => exact rMapComplete_store c l flush h

lemma rMapComplete_runOps (ops : List CacheOp) (c : singleSourceCacheMemory)
    (h : rMapComplete c) : rMapComplete (runOps c ops) := by
  induction ops generalizing c with
  | nil => exact h
  | cons op t ih =>
    rw [runOps, List.foldl_cons]
    exact ih (applyOp c op) (rMapComplete_applyOp c op h)

/-- C5: in every cache state reachable from the empty cache by the mutating
    operations (the reads do not change the state), every revision that is
    a ptrees key, an inner infos key or a vMap value is also an rMap key. -/
theorem reachable_rMap_complete (ops : List CacheOp) (r : Revision)
    (h : (∃ a m, (runOps newMemoryCache ops).infos a = some m
            ∧ (m r).isSome = true)
      ∨ ((runOps newMemoryCache ops).ptrees r).isSome = true
      ∨ (∃ u, (runOps newMemoryCache ops).vMap u = some r)) :
    ((runOps newMemoryCache ops).rMap r).isSome = true := by
  refine rMapComplete_runOps ops newMemoryCache ?_ r h
  intro r0 hyp
  rcases hyp with ⟨a, m, ha, _⟩ | hp | ⟨u, hu⟩
  · cases ha
  · cases hp
  · cases hu

/-- C5 witness: a ptrees key obtained by setPackageTree has an rMap entry. -/
theorem reachable_rMap_complete_witness :
    ((runOps newMemoryCache [CacheOp.setPT ⟨3⟩ ⟨9⟩]).rMap ⟨3⟩).isSome = true :=
  reachable_rMap_complete [CacheOp.setPT ⟨3⟩ ⟨9⟩] ⟨3⟩
    (Or.inr (Or.inl (by decide)))

/-- Every vMap value has a non-empty rMap entry. -/
def vMapBacked (c : singleSourceCacheMemory) : Prop :=
  ∀ u r, c.vMap u = some r → ∃ l0, c.rMap r = some l0 ∧ l0 ≠ []

lemma vMapBacked_setProjectInfo (c : singleSourceCacheMemory)
    (r0 : Revision) (an0 : ProjectAnalyzer) (pi0 : projectInfo)
    (h : vMapBacked c) : vMapBacked (setProjectInfo c r0 an0 pi0) := by
  intro u r hu
  rw [setProjectInfo_vMap] at hu
  obtain ⟨l0, hl0, hne⟩ := h u r hu
  rw [setProjectInfo_rMap]
  by_cases hr : r = r0
  · refine ⟨l0, ?_, hne⟩
    rw [if_pos hr, ← hr, hl0]
    rfl
  · rw [if_neg hr]
    exact ⟨l0, hl0, hne⟩

lemma vMapBacked_setPackageTree (c : singleSourceCacheMemory)
    (r0 : Revision) (t0 : PackageTree)
    (h : vMapBacked c) : vMapBacked (setPackageTree c r0 t0) := by
  intro u r hu
  rw [setPackageTree_vMap] at hu
  obtain ⟨l0, hl0, hne⟩ := h u r hu
  rw [setPackageTree_rMap]
  by_cases hr : r = r0
  · refine ⟨l0, ?_, hne⟩
    rw [if_pos hr, ← hr, hl0]
    rfl
  · rw [if_neg hr]
    exact ⟨l0, hl0, hne⟩

lemma vMapBacked_store (c : singleSourceCacheMemory)
    (l : List PairedVersion) (flush : Bool)
    (h : vMapBacked c) : vMapBacked (storeVersionMap c l flush) := by
  intro u r hu
  rw [storeVersionMap_vMap_eq] at hu
  rcases lookupLastD_some_cases l _ u r hu with ⟨pv, hpv, hpu, hpr⟩ | hacc
  · exact storeVersionMap_rMap_nonempty c l flush r (List.ne_nil_of_mem
      ((mem_filt r l pv.Unpair).mpr ⟨pv, hpv, hpr, rfl⟩))
  · cases flush
    · rw [if_neg Bool.false_ne_true] at hacc
      obtain ⟨l0, hl0, hne⟩ := h u r hacc
      obtain ⟨l1, hl1, hsub⟩ := storeVersionMap_rMap_keep c l false r l0 hl0
      refine ⟨l1, hl1, fun hl1nil => ?_⟩
      rcases List.exists_mem_of_ne_nil l0 hne with ⟨x, hx⟩
      have := hsub rfl x hx
      rw [hl1nil] at this
      cases this
    · rw [if_pos rfl] at hacc
      cases hacc

lemma vMapBacked_runOps (ops : List CacheOp) (c : singleSourceCacheMemory)
    (h : vMapBacked c) : vMapBacked (runOps c ops) := by
  induction ops generalizing c with
  | nil => exact h
  | cons op t ih =>
    rw [runOps, List.foldl_cons]
    refine ih (applyOp c op) ?_
    cases op with
    | setPI r an pi => exact vMapBacked_setProjectInfo c r an pi h
    | setPT r t0 => exact vMapBacked_setPackageTree c r t0 h
    | store l flush => exact vMapBacked_store c l flush h

/-- C8: in every reachable cache state, for every unpaired version u with
    vMap[u] = r, toRevision(u) yields r and toUnpaired(r) succeeds with an
    unpaired version associated with r in rMap. -/
theorem toUnpaired_toRevision_backed (ops : List CacheOp)
    (u : UnpairedVersion) (r : Revision)
    (h : (runOps newMemoryCache ops).vMap u = some r) :
    toRevision (runOps newMemoryCache ops) (Version.unpaired u) = some r
    ∧ ∃ u2, toUnpaired (runOps newMemoryCache ops) (Version.rev r) = some u2
        ∧ u2 ∈ ((runOps newMemoryCache ops).rMap r).getD [] := by
  have hb : vMapBacked (runOps newMemoryCache ops) := by
    refine vMapBacked_runOps ops newMemoryCache ?_
    intro u0 r0 hu0
    cases hu0
  obtain ⟨l0, hl0, hne⟩ := hb u r h
  rcases l0 with _ | ⟨x, t⟩
  · exact absurd rfl hne
  · refine ⟨h, x, ?_, ?_⟩
    · simp [toUnpaired, hl0]
    · rw [hl0]
      exact List.mem_cons_self _ _

/-- C8 witness: a stored pairing witnessed through the theorem. -/
theorem toUnpaired_toRevision_backed_witness :
    toRevision (runOps newMemoryCache
        [CacheOp.store [{ surface := ⟨0⟩, rev := ⟨1⟩ }] true])
        (Version.unpaired ⟨0⟩) = some ⟨1⟩
    ∧ ∃ u2, toUnpaired (runOps newMemoryCache
        [CacheOp.store [{ surface := ⟨0⟩, rev := ⟨1⟩ }] true])
        (Version.rev ⟨1⟩) = some u2
        ∧ u2 ∈ ((runOps newMemoryCache
        [CacheOp.store [{ surface := ⟨0⟩, rev := ⟨1⟩ }] true]).rMap
          ⟨1⟩).getD [] :=
  toUnpaired_toRevision_backed
    [CacheOp.store [{ surface := ⟨0⟩, rev := ⟨1⟩ }] true] ⟨0⟩ ⟨1⟩ (by decide)

/-- The three call types of the call manager. -/
inductive callType where
  | ctHTTPMetadata
  | ctListVersions
  | ctGetManifestAndLock
deriving DecidableEq, Repr

/-- Metadata key of an ongoing call: its name and type. -/
structure callInfo where
  name : String
  typ : callType
deriving DecidableEq, Repr

/-- A pending-call record: the dedup count and the start timestamp. -/
structure timeCount where
  count : Nat
  start : Nat
deriving DecidableEq, Repr

/-- Per-type metrics: completed-call count and accumulated duration. -/
structure durCount where
  count : Nat
  dur : Nat
deriving DecidableEq, Repr

/-- State of the callManager. The lifetime context is modelled by the
    canceled flag (ctx.Err() != nil); timestamps are abstract Nats passed
    in for time.Now(). -/
structure callManager where
  canceled : Bool
  running : callInfo → Option timeCount
  ran : callType → durCount

/-- callManager.run: error out (state untouched) when the lifetime context
    is canceled; otherwise increment the count of an existing entry, or
    insert a fresh entry with count 1 and the current time. The Bool of the
    pair is true when registration succeeded. -/
def callManager.run (cm : callManager) (ci : callInfo) (now : Nat) :
    callManager × Bool :=
  if cm.canceled then (cm, false)
  else
    match cm.running ci with
    | some existingInfo =>
      ({ cm with
         running := fun x =>
           if x = ci then some { existingInfo with count := existingInfo.count + 1 }
           else cm.running x }, true)
    | none =>
      ({ cm with
         running := fun x =>
           if x = ci then some { count := 1, start := now }
           else cm.running x }, true)

/-- callManager.done: decrement when more than one is pending; the last one
    removes the entry and folds now minus start into the metrics of the
    type. A missing entry panics in Go, modelled as none. -/
def callManager.done (cm : callManager) (ci : callInfo) (now : Nat) :
    Option callManager :=
  match cm.running ci with
  | none => none
  | some existingInfo =>
    if existingInfo.count > 1 then
      some { cm with
        running := fun x =>
          if x = ci then some { existingInfo with count := existingInfo.count - 1 }
          else cm.running x }
    else
      some { cm with
        running := fun x => if x = ci then none else cm.running x
        ran := fun t =>
          if t = ci.typ then
            { count := (cm.ran ci.typ).count + 1
              dur := (cm.ran ci.typ).dur + (now - existingInfo.start) }
          else cm.ran t }

/-- callManager.setUpCall: builds the callInfo key from name and type and
    registers it via run. The context combination and the deferred cleanup
    closure of the Go code have no effect on the manager state and are not
    modelled. -/
def callManager.setUpCall (cm : callManager) (name : String) (typ : callType)
    (now : Nat) : callManager × Bool :=
  callManager.run cm { name := name, typ := typ } now

/-- C6: registering an already-present key increments its count and keeps
    its start; done with count above one only decrements; the done that
    takes the count from 1 to 0 removes the key, increments ran[type].count
    and adds now minus start to ran[type].dur, leaving other keys and types
    untouched. -/
theorem callManager_dedup_spec (cm : callManager) (ci : callInfo) (now : Nat)
    (tc : timeCount) (h : cm.running ci = some tc) :
    (cm.canceled = false →
      callManager.run cm ci now =
        ({ cm with
           running := fun x =>
             if x = ci then some { count := tc.count + 1, start := tc.start }
             else cm.running x }, true))
    ∧ (tc.count > 1 →
      callManager.done cm ci now =
        some { cm with
          running := fun x =>
            if x = ci then some { count := tc.count - 1, start := tc.start }
            else cm.running x })
    ∧ (tc.count = 1 →
      callManager.done cm ci now =
        some { cm with
          running := fun x => if x = ci then none else cm.running x
          ran := fun t =>
            if t = ci.typ then
              { count := (cm.ran ci.typ).count + 1
                dur := (cm.ran ci.typ).dur + (now - tc.start) }
            else cm.ran t }) := by
  refine ⟨fun hc => ?_, fun hcount => ?_, fun hcount => ?_⟩
  · rw [callManager.run, if_neg (by rw [hc]; exact Bool.false_ne_true), h]
  · rw [callManager.done, h]
    dsimp only
    rw [if_pos hcount]
  · rw [callManager.done, h]
    dsimp only
    rw [if_neg (show ¬tc.count > 1 by omega)]

/-- C6 witness: the three clauses at a concrete manager state. -/
theorem callManager_dedup_spec_witness :
    (callManager.run
        { canceled := false
          running := fun x =>
            if x = { name := "a", typ := callType.ctListVersions } then
              some { count := 2, start := 5 }
            else none
          ran := fun _ => { count := 0, dur := 0 } }
        { name := "a", typ := callType.ctListVersions } 9).2 = true := by
  have h := callManager_dedup_spec
    { canceled := false
      running := fun x =>
        if x = { name := "a", typ := callType.ctListVersions } then
          some { count := 2, start := 5 }
        else none
      ran := fun _ => { count := 0, dur := 0 } }
    { name := "a", typ := callType.ctListVersions } 9
    { count := 2, start := 5 } (by simp)
  rw [h.1 rfl]

/-- C10: when the lifetime context is already canceled, run (and therefore
    setUpCall) reports an error and returns the manager state unchanged:
    the running and ran maps are not altered. -/
theorem run_canceled_no_change (cm : callManager) (ci : callInfo)
    (name : String) (typ : callType) (now : Nat) (h : cm.canceled = true) :
    callManager.run cm ci now = (cm, false)
    ∧ callManager.setUpCall cm name typ now = (cm, false) := by
  constructor
  · rw [callManager.run, if_pos h]
  · rw [callManager.setUpCall, callManager.run, if_pos h]

/-- C10 witness: a canceled manager is returned unchanged. -/
theorem run_canceled_no_change_witness :
    callManager.run
      { canceled := true, running := fun _ => none
        ran := fun _ => { count := 0, dur := 0 } }
      { name := "a", typ := callType.ctHTTPMetadata } 3 =
    ({ canceled := true, running := fun _ => none
       ran := fun _ => { count := 0, dur := 0 } }, false) :=
  (run_canceled_no_change
    { canceled := true, running := fun _ => none
      ran := fun _ => { count := 0, dur := 0 } }
    { name := "a", typ := callType.ctHTTPMetadata } "a"
    callType.ctHTTPMetadata 3 rfl).1

/-- The method set of singleSourceCacheMemory. -/
inductive cacheMethod where
  | mSetProjectInfo
  | mGetProjectInfo
  | mSetPackageTree
  | mGetPackageTree
  | mStoreVersionMap
  | mGetVersionsFor
  | mGetAllVersions
  | mGetRevisionFor
  | mToRevision
  | mToUnpaired
deriving DecidableEq, Repr

/-- Whether the body of each singleSourceCacheMemory method acquires the
    mutex c.mut around its accesses to the maps, transcribed method by
    method from the source. Every method locks (toRevision and toUnpaired
    lock in the branch that touches a map) except getAllVersions, which
    iterates c.vMap with no locking at all. -/
def acquiresMut : cacheMethod → Bool
  | .mSetProjectInfo => true
  | .mGetProjectInfo => true
  | .mSetPackageTree => true
  | .mGetPackageTree => true
  | .mStoreVersionMap => true
  | .mGetVersionsFor => true
  | .mGetAllVersions => false
  | .mGetRevisionFor => true
  | .mToRevision => true
  | .mToUnpaired => true

/-- C9: the concurrency claim fails in the code: getAllVersions reads the
    vMap map without acquiring the readers/writer lock, unlike every other
    method of the in-memory cache. -/
theorem getAllVersions_lock_missing :
    acquiresMut cacheMethod.mGetAllVersions = false
    ∧ ∀ m, m ≠ cacheMethod.mGetAllVersions → acquiresMut m = true := by
  refine ⟨rfl, fun m hm => ?_⟩
  cases m <;> first | rfl | exact absurd rfl hm

/-- The sourceState bit constants of the gateway. -/
def sourceIsSetUp : Nat := 1

/-- Bit 1: the source exists upstream. -/
def sourceExistsUpstream : Nat := 2

/-- Bit 2: the source exists in the local cache. -/
def sourceExistsLocally : Nat := 4

/-- Bit 3: the latest version list has been loaded. -/
def sourceHasLatestVersionList : Nat := 8

/-- Bit 4: the local clone is synced with upstream. -/
def sourceHasLatestLocally : Nat := 16

/-- Gateway state relevant to convertToRevision: the single-source cache
    and the srcState bit set. -/
structure gatewayState where
  cache : singleSourceCacheMemory
  srcState : Nat

/-- Errors surfaced by convertToRevision. -/
inductive GwError where
  | versionNotInSource (v : Version)
  | requireFailed (errState : Nat) (e : Nat)
deriving DecidableEq, Repr

/-- sourceGateway.convertToRevision. The cache is consulted first; on a
    miss with sourceHasLatestVersionList already set the call fails at
    once; otherwise the call to require(sourceIsSetUp ||| the list bit) is
    abstracted by the acquire argument (the driver may update the cache and
    srcState), and the cache is retried exactly once. -/
def convertToRevision (sg : gatewayState)
    (acquire : Except (Nat × Nat) gatewayState) (v : Version) :
    Except GwError (Revision × gatewayState) :=
  match toRevision sg.cache v with
  | some r => .ok (r, sg)
  | none =>
    if sg.srcState &&& sourceHasLatestVersionList ≠ 0 then
      .error (.versionNotInSource v)
    else
      match acquire with
      | .error fe => .error (.requireFailed fe.1 fe.2)
      | .ok sg1 =>
        match toRevision sg1.cache v with
        | some r => .ok (r, sg1)
        | none => .error (.versionNotInSource v)

/-- C2: convertToRevision consults the cache first and returns a hit
    without touching the driver; on a miss with the version-list bit set it
    fails at once, again independent of the driver; otherwise it performs
    the acquisition and retries the cache exactly once, failing with the
    version-does-not-exist error if the version is still absent. -/
theorem convertToRevision_spec (sg : gatewayState) (v : Version)
    (acquire acquire2 : Except (Nat × Nat) gatewayState) :
    (∀ r, toRevision sg.cache v = some r →
      convertToRevision sg acquire v = .ok (r, sg)
      ∧ convertToRevision sg acquire v = convertToRevision sg acquire2 v)
    ∧ (toRevision sg.cache v = none →
        sg.srcState &&& sourceHasLatestVersionList ≠ 0 →
      convertToRevision sg acquire v = .error (.versionNotInSource v)
      ∧ convertToRevision sg acquire v = convertToRevision sg acquire2 v)
    ∧ (toRevision sg.cache v = none →
        sg.srcState &&& sourceHasLatestVersionList = 0 →
      (∀ es e, acquire = .error (es, e) →
        convertToRevision sg acquire v = .error (.requireFailed es e))
      ∧ (∀ sg1, acquire = .ok sg1 →
        ((∀ r, toRevision sg1.cache v = some r →
          convertToRevision sg acquire v = .ok (r, sg1))
        ∧ (toRevision sg1.cache v = none →
          convertToRevision sg acquire v = .error (.versionNotInSource v))))) := by
  refine ⟨fun r hr => ?_, fun hnone hbit => ?_, fun hnone hbit => ?_⟩
  · unfold convertToRevision
    rw [hr]
    exact ⟨rfl, rfl⟩
  · constructor
    · unfold convertToRevision
      rw [hnone]
      dsimp only
      rw [if_pos hbit]
    · unfold convertToRevision
      rw [hnone]
      dsimp only
      rw [if_pos hbit, if_pos hbit]
  · refine ⟨fun es e hacq => ?_, fun sg1 hacq => ⟨fun r hr1 => ?_, fun hn1 => ?_⟩⟩
    · unfold convertToRevision
      rw [hnone]
      dsimp only
      rw [if_neg (by rw [hbit]; exact fun hc => hc rfl), hacq]
    · unfold convertToRevision
      rw [hnone]
      dsimp only
      rw [if_neg (by rw [hbit]; exact fun hc => hc rfl), hacq]
      dsimp only
      rw [hr1]
    · unfold convertToRevision
      rw [hnone]
      dsimp only
      rw [if_neg (by rw [hbit]; exact fun hc => hc rfl), hacq]
      dsimp only
      rw [hn1]

/-- C2 witness: a cache hit on a concrete gateway state returns the cached
    revision for any driver behavior. -/
theorem convertToRevision_spec_witness :
    convertToRevision
      { cache := storeVersionMap newMemoryCache
          [{ surface := ⟨0⟩, rev := ⟨1⟩ }] true
        srcState := 0 }
      (Except.error (8, 42)) (Version.unpaired ⟨0⟩) =
    Except.ok (⟨1⟩,
      { cache := storeVersionMap newMemoryCache
          [{ surface := ⟨0⟩, rev := ⟨1⟩ }] true
        srcState := 0 }) :=
  ((convertToRevision_spec
    { cache := storeVersionMap newMemoryCache
        [{ surface := ⟨0⟩, rev := ⟨1⟩ }] true
      srcState := 0 }
    (Version.unpaired ⟨0⟩) (Except.error (8, 42))
    (Except.error (8, 42))).1 ⟨1⟩
    (by rw [toRevision, storeVersionMap_flush_vMap]; decide)).1

/-- Normalized source identifiers (id.normalizedSource()). -/
structure NormName where
  val : Nat
deriving DecidableEq, Repr

/-- Resolved source URLs. -/
structure SourceURL where
  val : Nat
deriving DecidableEq, Repr

/-- State of the sourceCoordinator: the srcs and nameToURL maps, plus a
    counter allocating identities for newly constructed gateways. -/
structure sourceCoordinator where
  srcs : SourceURL → Option Nat
  nameToURL : NormName → Option SourceURL
  nextGate : Nat

/-- A fresh coordinator: both maps empty. -/
def newSourceCoordinator : sourceCoordinator where
  srcs := fun _ => none
  nameToURL := fun _ => none
  nextGate := 0

/-- Errors of getSourceGatewayFor: a deduction or setup failure, or the
    panic hit when nameToURL has an entry whose URL is absent from srcs. -/
inductive CoordErr where
  | resolveFailed (e : Nat)
  | inconsistentMaps
deriving DecidableEq, Repr

/-- sourceCoordinator.getSourceGatewayFor, sequentialized: the channel
    folding only deduplicates concurrent duplicate work and every path
    rejoins the logic below. The resolve argument abstracts the composition
    of deducer.deduceRootPath and srcGate.sourceURL, both deterministic in
    the normalized name. When nameToURL knows the name and srcs knows the
    URL the stored gateway is returned; a known name with an unknown URL
    panics in the source. Otherwise a gateway is constructed (nextGate),
    the name-to-URL binding is recorded, and the new gateway is stored
    unless srcs already holds one for that URL, in which case the new one
    is discarded and the stored one returned. -/
def getSourceGatewayFor (resolve : NormName → Except Nat SourceURL)
    (sc : sourceCoordinator) (nm : NormName) :
    Except CoordErr (Nat × sourceCoordinator) :=
  match sc.nameToURL nm with
  | some url =>
    match sc.srcs url with
    | some g => .ok (g, sc)
    | none => .error .inconsistentMaps
  | none =>
    match resolve nm with
    | .error e => .error (.resolveFailed e)
    | .ok url =>
      let g := sc.nextGate
      let sc1 : sourceCoordinator :=
        { sc with
          nextGate := sc.nextGate + 1
          nameToURL := fun n => if n = nm then some url else sc.nameToURL n }
      match sc1.srcs url with
      | some sa => .ok (sa, sc1)
      | none =>
        .ok (g, { sc1 with
          srcs := fun u => if u = url then some g else sc1.srcs u })

/-- Coordinator invariant relative to a fixed resolver: every recorded
    name-to-URL binding agrees with the resolver and its URL has a gateway
    in srcs. -/
def coordInv (resolve : NormName → Except Nat SourceURL)
    (sc : sourceCoordinator) : Prop :=
  ∀ n url, sc.nameToURL n = some url →
    resolve n = .ok url ∧ (sc.srcs url).isSome = true

lemma coordInv_new (resolve : NormName → Except Nat SourceURL) :
    coordInv resolve newSourceCoordinator := by
  intro n url h
  cases h

lemma getSourceGatewayFor_cases (resolve : NormName → Except Nat SourceURL)
    (sc : sourceCoordinator) (nm : NormName) (g : Nat)
    (sc2 : sourceCoordinator) (hinv : coordInv resolve sc)
    (hok : getSourceGatewayFor resolve sc nm = .ok (g, sc2)) :
    ∃ url, resolve nm = .ok url ∧ sc2.srcs url = some g
      ∧ coordInv resolve sc2
      ∧ (∀ g0, sc.srcs url = some g0 → g = g0 ∧ sc2.srcs = sc.srcs) := by
  unfold getSourceGatewayFor at hok
  cases hn : sc.nameToURL nm with
  | some url =>
    rw [hn] at hok
    dsimp only at hok
    obtain ⟨hres, hsome⟩ := hinv nm url hn
    cases hs : sc.srcs url with
    | none => rw [hs] at hsome; cases hsome
    | some g0 =>
      rw [hs] at hok
      dsimp only at hok
      cases hok
      refine ⟨url, hres, hs, hinv, fun g1 hg1 => ?_⟩
      rw [hs] at hg1
      exact ⟨Option.some_inj.mp hg1, rfl⟩
  | none =>
    rw [hn] at hok
    dsimp only at hok
    cases hres : resolve nm with
    | error e => rw [hres] at hok; cases hok
    | ok url =>
      rw [hres] at hok
      dsimp only at hok
      cases hs : sc.srcs url with
      | some sa =>
        rw [hs] at hok
        dsimp only at hok
        cases hok
        refine ⟨url, rfl, hs, ?_, fun g0 hg0 => ?_⟩
        · intro n u hnu
          by_cases hnm : n = nm
          · subst hnm
            simp only [if_pos rfl] at hnu
            have hu : u = url := (Option.some_inj.mp hnu).symm
            subst hu
            refine ⟨hres, ?_⟩
            show (sc.srcs u).isSome = true
            rw [hs]; rfl
          · simp only [if_neg hnm] at hnu
            exact hinv n u hnu
        · rw [hs] at hg0
          exact ⟨Option.some_inj.mp hg0, rfl⟩
      | none =>
        rw [hs] at hok
        dsimp only at hok
        cases hok
        refine ⟨url, rfl, by simp, ?_, fun g0 hg0 => ?_⟩
        · intro n u hnu
          by_cases hnm : n = nm
          · subst hnm
            simp only [if_pos rfl] at hnu
            have hu : u = url := (Option.some_inj.mp hnu).symm
            subst hu
            exact ⟨hres, by simp⟩
          · simp only [if_neg hnm] at hnu
            obtain ⟨h1, h2⟩ := hinv n u hnu
            refine ⟨h1, ?_⟩
            show (if u = url then some sc.nextGate else sc.srcs u).isSome = true
            by_cases hu : u = url
            · simp [hu]
            · simp only [if_neg hu]
              exact h2
        · rw [hs] at hg0
          cases hg0

/-- C7: relative to a deterministic resolver, from any state satisfying the
    coordinator invariant (which the fresh coordinator does), a successful
    getSourceGatewayFor for a name resolving to URL U returns exactly the
    gateway stored at srcs[U] afterwards, preserves the invariant, discards
    the newly constructed gateway when srcs[U] was already populated, and
    two names resolving to the same U (called one after the other) receive
    the same gateway. -/
theorem coordinator_single_gateway (resolve : NormName → Except Nat SourceURL)
    (sc : sourceCoordinator) (hinv : coordInv resolve sc) :
    (coordInv resolve newSourceCoordinator)
    ∧ (∀ nm g sc2, getSourceGatewayFor resolve sc nm = .ok (g, sc2) →
        coordInv resolve sc2
        ∧ ∀ url, resolve nm = .ok url →
            sc2.srcs url = some g
            ∧ (∀ g0, sc.srcs url = some g0 → g = g0 ∧ sc2.srcs = sc.srcs))
    ∧ (∀ nm1 nm2 url g1 g2 sc1 sc2,
        resolve nm1 = .ok url → resolve nm2 = .ok url →
        getSourceGatewayFor resolve sc nm1 = .ok (g1, sc1) →
        getSourceGatewayFor resolve sc1 nm2 = .ok (g2, sc2) →
        g2 = g1) := by
  refine ⟨coordInv_new resolve, fun nm g sc2 hok => ?_, ?_⟩
  · obtain ⟨url, hres, hstored, hinv2, hdupl⟩ :=
      getSourceGatewayFor_cases resolve sc nm g sc2 hinv hok
    refine ⟨hinv2, fun url2 hres2 => ?_⟩
    rw [hres] at hres2
    cases hres2
    exact ⟨hstored, hdupl⟩
  · intro nm1 nm2 url g1 g2 sc1 sc2 hr1 hr2 hok1 hok2
    obtain ⟨url1, hres1, hstored1, hinv1, _⟩ :=
      getSourceGatewayFor_cases resolve sc nm1 g1 sc1 hinv hok1
    rw [hr1] at hres1
    cases hres1
    obtain ⟨url2, hres2, hstored2, hinv2, hdupl2⟩ :=
      getSourceGatewayFor_cases resolve sc1 nm2 g2 sc2 hinv1 hok2
    rw [hr2] at hres2
    cases hres2
    exact (hdupl2 g1 hstored1).1

/-- A concrete resolver mapping every name to URL 9. -/
def wRes : NormName → Except Nat SourceURL := fun _ => Except.ok ⟨9⟩

/-- The coordinator state after getSourceGatewayFor on name 1. -/
def wSC1 : sourceCoordinator where
  srcs := fun u => if u = ⟨9⟩ then some 0 else none
  nameToURL := fun n => if n = ⟨1⟩ then some ⟨9⟩ else none
  nextGate := 1

/-- The coordinator state after a second getSourceGatewayFor on the alias
    name 2: the newly built gateway 1 is discarded, srcs is unchanged. -/
def wSC2 : sourceCoordinator where
  srcs := fun u => if u = ⟨9⟩ then some 0 else none
  nameToURL := fun n => if n = ⟨2⟩ then some ⟨9⟩ else wSC1.nameToURL n
  nextGate := 2

/-- C7 witness: the alias name 2, resolving to the URL of name 1, receives
    the gateway already stored for that URL. -/
theorem coordinator_single_gateway_witness :
    getSourceGatewayFor wRes wSC1 ⟨2⟩ = Except.ok (0, wSC2)
    ∧ wSC2.srcs ⟨9⟩ = some 0 := by
  have h2 : getSourceGatewayFor wRes wSC1 ⟨2⟩ = Except.ok (0, wSC2) := rfl
  have hinv1 : coordInv wRes wSC1 := by
    intro n u h
    by_cases hn : n = ⟨1⟩
    · subst hn
      simp only [wSC1, if_pos rfl] at h
      cases h
      exact ⟨rfl, rfl⟩
    · simp only [wSC1, if_neg hn] at h
      cases h
  have h := ((coordinator_single_gateway wRes wSC1 hinv1).2.1 ⟨2⟩ 0 wSC2
    h2).2 ⟨9⟩ rfl
  exact ⟨h2, h.1⟩

/-- The loop of sourceGateway.require: iterate i upward while todo is
    non-zero; when flag = 1 <<< i is in todo, perform the acquisition step
    for that flag (the five driver steps are abstracted by the attempt
    oracle, none meaning success), set the flag in srcState on success, and
    stop at once on failure. Returns (new srcState, errState, error): Go
    keeps srcState in a field and returns (errState, err), with errState 0
    and err nil on success. The Go loop terminates because todo has at most
    32 bits; the fuel argument carries that bound. -/
def requireLoop (attempt : Nat → Option Nat) :
    Nat → Nat → Nat → Nat → Nat × Nat × Option Nat
  | 0, _, srcState, _ => (srcState, 0, none)
  | fuel + 1, i, srcState, todo =>
    if todo = 0 then (srcState, 0, none)
    else
      if todo &&& (1 <<< i) ≠ 0 then
        match attempt (1 <<< i) with
        | some e => (srcState, 1 <<< i, some e)
        | none =>
          requireLoop attempt fuel (i + 1) (srcState ||| (1 <<< i))
            (todo - (1 <<< i))
      else requireLoop attempt fuel (i + 1) srcState todo

/-- sourceGateway.require: todo is the uint32 complement of srcState
    intersected with wanted, processed in increasing bit order. -/
def require (attempt : Nat → Option Nat) (srcState wanted : Nat) :
    Nat × Nat × Option Nat :=
  requireLoop attempt 32 0 srcState ((srcState ^^^ (2 ^ 32 - 1)) &&& wanted)

lemma and_two_pow_ne_zero (x i : Nat) :
    x &&& 2 ^ i ≠ 0 ↔ x.testBit i = true := by
  constructor
  · intro h
    rcases Nat.ne_zero_implies_bit_true h with ⟨j, hj⟩
    rw [Nat.testBit_and, Nat.testBit_two_pow, Bool.and_eq_true] at hj
    rcases hj with ⟨hx, hij⟩
    have : i = j := of_decide_eq_true hij
    rw [this]
    exact hx
  · intro h hzero
    have hb : (x &&& 2 ^ i).testBit i = true := by
      rw [Nat.testBit_and, h, Nat.testBit_two_pow]
      simp
    rw [hzero, Nat.zero_testBit] at hb
    cases hb

lemma testBit_two_pow_mul (i m j : Nat) :
    (2 ^ i * m).testBit j = (decide (i ≤ j) && m.testBit (j - i)) := by
  rw [Nat.mul_comm, ← Nat.shiftLeft_eq, Nat.testBit_shiftLeft]

lemma mod_two_mul (m k : Nat) (hk : 0 < k) :
    m % (2 * k) = 2 * (m / 2 % k) + m % 2 := by
  have h1 : m = 2 * k * (m / 2 / k) + (2 * (m / 2 % k) + m % 2) := by
    calc m = 2 * (m / 2) + m % 2 := (Nat.div_add_mod m 2).symm
    _ = 2 * (k * (m / 2 / k) + m / 2 % k) + m % 2 := by
        conv_rhs => rw [Nat.div_add_mod]
    _ = 2 * k * (m / 2 / k) + (2 * (m / 2 % k) + m % 2) := by ring
  have h2 : 2 * (m / 2 % k) + m % 2 < 2 * k := by
    have ha := Nat.mod_lt (m / 2) hk
    have hb : m % 2 < 2 := Nat.mod_lt m (by omega)
    omega
  calc m % (2 * k)
      = (2 * k * (m / 2 / k) + (2 * (m / 2 % k) + m % 2)) % (2 * k) := by
        rw [← h1]
    _ = (2 * (m / 2 % k) + m % 2) % (2 * k) := Nat.mul_add_mod _ _ _
    _ = 2 * (m / 2 % k) + m % 2 := Nat.mod_eq_of_lt h2

lemma or_step (s i m : Nat) (hm : m % 2 = 1) :
    (s ||| 2 ^ i) ||| 2 ^ (i + 1) * (m / 2) = s ||| 2 ^ i * m := by
  apply Nat.eq_of_testBit_eq
  intro j
  simp only [Nat.testBit_or, testBit_two_pow_mul, Nat.testBit_two_pow]
  rcases lt_trichotomy j i with hj | hj | hj
  · have h1 : ¬i = j := by omega
    have h2 : ¬i + 1 ≤ j := by omega
    have h3 : ¬i ≤ j := by omega
    simp [h1, h2, h3]
  · subst hj
    have h2 : ¬j + 1 ≤ j := by omega
    simp [h2, Nat.sub_self, hm]
  · have h1 : ¬i = j := by omega
    have h2 : i ≤ j := by omega
    have h3 : i + 1 ≤ j := by omega
    have h4 : j - i - 1 + 1 = j - i := by omega
    have h5 : j - (i + 1) = j - i - 1 := by omega
    have h6 : (m / 2).testBit (j - i - 1) = m.testBit (j - i) := by
      rw [Nat.testBit_div_two, h4]
    rw [h5, h6]
    simp [h1, h2, h3]

lemma requireLoop_ok (attempt : Nat → Option Nat) :
    ∀ fuel i s m, m < 2 ^ fuel →
      (∀ j, m.testBit j = true → attempt (2 ^ (i + j)) = none) →
      requireLoop attempt fuel i s (2 ^ i * m) = (s ||| 2 ^ i * m, 0, none) := by
  intro fuel
  induction fuel with
  | zero =>
    intro i s m hm _
    have hm0 : m = 0 := by omega
    subst hm0
    simp [requireLoop]
  | succ fuel ih =>
    intro i s m hm hok
    by_cases hm0 : m = 0
    · subst hm0
      simp [requireLoop]
    · have htodo : ¬2 ^ i * m = 0 :=
        Nat.mul_ne_zero (Nat.pos_of_ne_zero (by positivity)).ne' hm0
      rw [requireLoop, if_neg htodo]
      have hmhalf : m / 2 < 2 ^ fuel := by
        rw [Nat.pow_succ] at hm
        omega
      have hoknext : ∀ j, (m / 2).testBit j = true →
          attempt (2 ^ (i + 1 + j)) = none := by
        intro j hj
        have hmj : m.testBit (j + 1) = true := by
          rw [← Nat.testBit_div_two]
          exact hj
        have := hok (j + 1) hmj
        rwa [show i + (j + 1) = i + 1 + j by omega] at this
      by_cases hpar : m % 2 = 1
      · have htb : (2 ^ i * m).testBit i = true := by
          rw [testBit_two_pow_mul]
          simp [hpar]
        have hand : 2 ^ i * m &&& (1 <<< i) ≠ 0 := by
          rw [Nat.one_shiftLeft]
          exact (and_two_pow_ne_zero _ i).mpr htb
        rw [if_pos hand]
        have hatt : attempt (1 <<< i) = none := by
          rw [Nat.one_shiftLeft]
          have := hok 0 (by simp [hpar])
          rwa [Nat.add_zero] at this
        rw [hatt]
        have h1 : 2 ^ i * (m - 1) = 2 ^ i * m - 2 ^ i := Nat.mul_pred (2 ^ i) m
        have hsub : 2 ^ i * m - 1 <<< i = 2 ^ (i + 1) * (m / 2) := by
          rw [Nat.one_shiftLeft, ← h1, show m - 1 = 2 * (m / 2) by omega,
            Nat.pow_succ]
          ring
        rw [hsub, ih (i + 1) (s ||| 1 <<< i) (m / 2) hmhalf hoknext,
          Nat.one_shiftLeft, or_step s i m hpar]
      · have hpar0 : m % 2 = 0 := by omega
        have htb : (2 ^ i * m).testBit i = false := by
          rw [testBit_two_pow_mul]
          simp [hpar0]
        have hand : ¬2 ^ i * m &&& (1 <<< i) ≠ 0 := by
          rw [Nat.one_shiftLeft]
          intro hc
          have := (and_two_pow_ne_zero _ i).mp hc
          rw [htb] at this
          cases this
        rw [if_neg hand]
        have hm2 : m = 2 * (m / 2) := by omega
        have heq : 2 ^ i * m = 2 ^ (i + 1) * (m / 2) := by
          calc 2 ^ i * m = 2 ^ i * (2 * (m / 2)) := by rw [← hm2]
          _ = 2 ^ (i + 1) * (m / 2) := by rw [Nat.pow_succ]; ring
        rw [heq]
        exact ih (i + 1) s (m / 2) hmhalf hoknext

lemma requireLoop_err (attempt : Nat → Option Nat) :
    ∀ fuel i s m d e, m < 2 ^ fuel →
      m.testBit d = true →
      attempt (2 ^ (i + d)) = some e →
      (∀ j, j < d → m.testBit j = true → attempt (2 ^ (i + j)) = none) →
      requireLoop attempt fuel i s (2 ^ i * m) =
        (s ||| 2 ^ i * (m % 2 ^ d), 2 ^ (i + d), some e) := by
  intro fuel
  induction fuel with
  | zero =>
    intro i s m d e hm hd _ _
    have hm0 : m = 0 := by omega
    rw [hm0, Nat.zero_testBit] at hd
    cases hd
  | succ fuel ih =>
    intro i s m d e hm hd hatt hprev
    have hm0 : m ≠ 0 := by
      intro h0
      rw [h0, Nat.zero_testBit] at hd
      cases hd
    have htodo : ¬2 ^ i * m = 0 :=
      Nat.mul_ne_zero (Nat.pos_of_ne_zero (by positivity)).ne' hm0
    rw [requireLoop, if_neg htodo]
    have hmhalf : m / 2 < 2 ^ fuel := by
      rw [Nat.pow_succ] at hm
      omega
    by_cases hpar : m % 2 = 1
    · have htb : (2 ^ i * m).testBit i = true := by
        rw [testBit_two_pow_mul]
        simp [hpar]
      have hand : 2 ^ i * m &&& (1 <<< i) ≠ 0 := by
        rw [Nat.one_shiftLeft]
        exact (and_two_pow_ne_zero _ i).mpr htb
      rw [if_pos hand]
      by_cases hd0 : d = 0
      · subst hd0
        have hatt0 : attempt (1 <<< i) = some e := by
          rw [Nat.one_shiftLeft]
          rwa [Nat.add_zero] at hatt
        rw [hatt0]
        dsimp only
        have hz : m % 2 ^ 0 = 0 := Nat.mod_one m
        rw [hz, Nat.mul_zero, Nat.or_zero, Nat.add_zero, Nat.one_shiftLeft]
      · have hatt0 : attempt (1 <<< i) = none := by
          rw [Nat.one_shiftLeft]
          have := hprev 0 (by omega) (by simp [hpar])
          rwa [Nat.add_zero] at this
        rw [hatt0]
        have h1 : 2 ^ i * (m - 1) = 2 ^ i * m - 2 ^ i := Nat.mul_pred (2 ^ i) m
        have hsub : 2 ^ i * m - 1 <<< i = 2 ^ (i + 1) * (m / 2) := by
          rw [Nat.one_shiftLeft, ← h1, show m - 1 = 2 * (m / 2) by omega,
            Nat.pow_succ]
          ring
        have hdbit : (m / 2).testBit (d - 1) = true := by
          rw [Nat.testBit_div_two, show d - 1 + 1 = d by omega]
          exact hd
        have hattnext : attempt (2 ^ (i + 1 + (d - 1))) = some e := by
          rwa [show i + 1 + (d - 1) = i + d by omega]
        have hprevnext : ∀ j, j < d - 1 → (m / 2).testBit j = true →
            attempt (2 ^ (i + 1 + j)) = none := by
          intro j hj hb
          have hmj : m.testBit (j + 1) = true := by
            rw [← Nat.testBit_div_two]
            exact hb
          have := hprev (j + 1) (by omega) hmj
          rwa [show i + (j + 1) = i + 1 + j by omega] at this
        rw [hsub, ih (i + 1) (s ||| 1 <<< i) (m / 2) (d - 1) e hmhalf hdbit
          hattnext hprevnext]
        have hpow : (2 : Nat) ^ d = 2 * 2 ^ (d - 1) := by
          conv_lhs => rw [show d = d - 1 + 1 by omega]
          rw [Nat.pow_succ]
          ring
        have hmm := mod_two_mul m (2 ^ (d - 1)) (by positivity)
        rw [← hpow] at hmm
        have hhalfmod : m / 2 % 2 ^ (d - 1) = m % 2 ^ d / 2 := by omega
        have hmodpar : m % 2 ^ d % 2 = 1 := by omega
        rw [Nat.one_shiftLeft, hhalfmod, or_step s i (m % 2 ^ d) hmodpar,
          show i + 1 + (d - 1) = i + d by omega]
    · have hpar0 : m % 2 = 0 := by omega
      have hd0 : d ≠ 0 := by
        intro h0
        rw [h0, Nat.testBit_zero] at hd
        have := of_decide_eq_true hd
        omega
      have htb : (2 ^ i * m).testBit i = false := by
        rw [testBit_two_pow_mul]
        simp [hpar0]
      have hand : ¬2 ^ i * m &&& (1 <<< i) ≠ 0 := by
        rw [Nat.one_shiftLeft]
        intro hc
        have := (and_two_pow_ne_zero _ i).mp hc
        rw [htb] at this
        cases this
      rw [if_neg hand]
      have hm2 : m = 2 * (m / 2) := by omega
      have heq : 2 ^ i * m = 2 ^ (i + 1) * (m / 2) := by
        calc 2 ^ i * m = 2 ^ i * (2 * (m / 2)) := by rw [← hm2]
        _ = 2 ^ (i + 1) * (m / 2) := by rw [Nat.pow_succ]; ring
      have hdbit : (m / 2).testBit (d - 1) = true := by
        rw [Nat.testBit_div_two, show d - 1 + 1 = d by omega]
        exact hd
      have hattnext : attempt (2 ^ (i + 1 + (d - 1))) = some e := by
        rwa [show i + 1 + (d - 1) = i + d by omega]
      have hprevnext : ∀ j, j < d - 1 → (m / 2).testBit j = true →
          attempt (2 ^ (i + 1 + j)) = none := by
        intro j hj hb
        have hmj : m.testBit (j + 1) = true := by
          rw [← Nat.testBit_div_two]
          exact hb
        have := hprev (j + 1) (by omega) hmj
        rwa [show i + (j + 1) = i + 1 + j by omega] at this
      rw [heq, ih (i + 1) s (m / 2) (d - 1) e hmhalf hdbit hattnext hprevnext]
      have hpow : (2 : Nat) ^ d = 2 * 2 ^ (d - 1) := by
        conv_lhs => rw [show d = d - 1 + 1 by omega]
        rw [Nat.pow_succ]
        ring
      have hmm := mod_two_mul m (2 ^ (d - 1)) (by positivity)
      rw [← hpow] at hmm
      have hmul : 2 ^ (i + 1) * (m / 2 % 2 ^ (d - 1)) = 2 ^ i * (m % 2 ^ d) := by
        have hval : m % 2 ^ d = 2 * (m / 2 % 2 ^ (d - 1)) := by omega
        rw [hval, Nat.pow_succ]
        ring
      rw [hmul, show i + 1 + (d - 1) = i + d by omega]

/-- C1: require processes todo = (not srcState) AND wanted in increasing
    bit order. When every step of todo succeeds, all todo bits are set in
    srcState and errState 0 with no error is returned. When the lowest todo
    bit whose step fails is k, exactly the todo bits below k (todo mod 2^k)
    have been added to srcState, the offending flag 2^k is returned with
    the error, and no later step is attempted: any oracle agreeing on the
    flags up to 2^k produces the identical result. -/
theorem require_spec (attempt attempt2 : Nat → Option Nat)
    (srcState wanted : Nat) (hs : srcState < 32) (hw : wanted < 32) :
    ((∀ j, ((srcState ^^^ (2 ^ 32 - 1)) &&& wanted).testBit j = true →
        attempt (2 ^ j) = none) →
      require attempt srcState wanted =
        (srcState ||| ((srcState ^^^ (2 ^ 32 - 1)) &&& wanted), 0, none))
    ∧ (∀ k e, ((srcState ^^^ (2 ^ 32 - 1)) &&& wanted).testBit k = true →
        attempt (2 ^ k) = some e →
        (∀ j, j < k →
          ((srcState ^^^ (2 ^ 32 - 1)) &&& wanted).testBit j = true →
          attempt (2 ^ j) = none) →
        (require attempt srcState wanted =
          (srcState ||| (((srcState ^^^ (2 ^ 32 - 1)) &&& wanted) % 2 ^ k),
            2 ^ k, some e)
        ∧ ((∀ j, j ≤ k → attempt2 (2 ^ j) = attempt (2 ^ j)) →
          require attempt2 srcState wanted =
            (srcState ||| (((srcState ^^^ (2 ^ 32 - 1)) &&& wanted) % 2 ^ k),
              2 ^ k, some e)))) := by
  have htodo_lt : (srcState ^^^ (2 ^ 32 - 1)) &&& wanted < 2 ^ 32 :=
    Nat.and_lt_two_pow _ (lt_of_lt_of_le hw (by norm_num))
  constructor
  · intro hok
    have hmain := requireLoop_ok attempt 32 0 srcState
      ((srcState ^^^ (2 ^ 32 - 1)) &&& wanted) htodo_lt
      (fun j hj => by rw [Nat.zero_add]; exact hok j hj)
    simp only [Nat.pow_zero, Nat.one_mul] at hmain
    rw [require]
    exact hmain
  · intro k e hk hke hprev
    have key : ∀ att : Nat → Option Nat, att (2 ^ k) = some e →
        (∀ j, j < k →
          ((srcState ^^^ (2 ^ 32 - 1)) &&& wanted).testBit j = true →
          att (2 ^ j) = none) →
        require att srcState wanted =
          (srcState ||| (((srcState ^^^ (2 ^ 32 - 1)) &&& wanted) % 2 ^ k),
            2 ^ k, some e) := by
      intro att ha hp
      have hmain := requireLoop_err att 32 0 srcState
        ((srcState ^^^ (2 ^ 32 - 1)) &&& wanted) k e htodo_lt hk
        (by rw [Nat.zero_add]; exact ha)
        (fun j hj hb => by rw [Nat.zero_add]; exact hp j hj hb)
      simp only [Nat.pow_zero, Nat.one_mul, Nat.zero_add] at hmain
      rw [require]
      exact hmain
    refine ⟨key attempt hke hprev, fun hagree => ?_⟩
    exact key attempt2 ((hagree k (Nat.le_refl k)).trans hke)
      (fun j hj hb => (hagree j (by omega)).trans (hprev j hj hb))

/-- C1 witness: with srcState 1 and wanted 21 (todo has bits 2 and 4), a
    failure of the bit-2 step stops the loop, leaves srcState at 1 and
    returns the offending flag 4 with the error. -/
theorem require_spec_witness :
    require (fun f => if f = 4 then some 7 else none) 1 21 = (1, 4, some 7) := by
  have h := ((require_spec (fun f => if f = 4 then some 7 else none)
      (fun f => if f = 4 then some 7 else none) 1 21 (by norm_num)
      (by norm_num)).2 2 7 (by decide) (by decide)
      (by
        intro j hj hb
        interval_cases j <;> exact absurd hb (by decide))).1
  rw [h]
  decide

end GPS
